import Mathlib

/-!
Verification of the overdensity detector ("dwarf filter") from the Astro
Data Lab ADASS 2023 tutorial notebook
`DwarfGalaxiesInSmash_WithExercises.ipynb`.

The notebook's `dwarf_filter` function and its peak-coordinate cell are
embedded here over exact rationals.  The numerical-library primitives the
notebook delegates to (`np.cos`, the square root inside `np.std`, and the
sampled Gaussian kernel built by `astropy.convolution.Gaussian2DKernel`)
are transcendental over the reals, so they enter the embedding as
parameters bundled in `NumpyEnv`; theorems are proved for all values of
these parameters and witnesses instantiate them with simple computable
stand-ins.
-/

namespace DwarfFilter

/-- Semantics of `np.rint`: round to the nearest integer, ties to even. -/
def np_rint (q : ℚ) : ℤ :=
  let f : ℤ := ⌊q⌋
  if q - f < 1/2 then f
  else if (1 : ℚ)/2 < q - f then f + 1
  else if f % 2 = 0 then f else f + 1

/-- Minimum of a list of rationals, as `ndarray.min` on a nonempty array
(the value on `[]` is irrelevant: the pipeline errors before using it,
just as the numpy call raises on an empty array). -/
def listMin : List ℚ → ℚ
  | [] => 0
  | h :: t => t.foldl min h

/-- Maximum of a list of rationals, as `ndarray.max` on a nonempty array. -/
def listMax : List ℚ → ℚ
  | [] => 0
  | h :: t => t.foldl max h

/-- Bin index assigned by `np.histogram` to a value `v` for `n` uniform
bins over `[a, b]`: bins are half-open on the right except the last bin,
which also contains `b`. -/
def binIdx (a b : ℚ) (n : ℕ) (v : ℚ) : ℕ :=
  if v = b then n - 1 else (⌊(v - a) * n / (b - a)⌋).toNat

/-- Count of `np.histogram2d` in bin `(i, j)` (RA bin `i`, Dec bin `j`),
over uniform bins spanning `[a, b] × [c, d]`. -/
def hist2dCount (ra dec : List ℚ) (a b c d : ℚ) (nx ny : ℕ) (i j : ℕ) : ℕ :=
  ((ra.zip dec).filter
    (fun p => binIdx a b nx p.1 == i && binIdx c d ny p.2 == j)).length

/-- A dense 2D array: `ny` rows and `nx` columns, with entry `val j i` at
row `j` (declination axis) and column `i` (right-ascension axis). -/
structure Field where
  ny : ℕ
  nx : ℕ
  val : ℕ → ℕ → ℚ

/-- A convolution kernel with finite square support, standing for the
array built by `astropy.convolution.Gaussian2DKernel(stddev, factor=1)`:
weights sampled on `[-radius, radius] × [-radius, radius]`. -/
structure Kernel2D where
  radius : ℕ
  weight : ℤ → ℤ → ℚ

/-- Value of a field at integer coordinates, zero outside the array:
the default `boundary='fill', fill_value=0.0` of
`astropy.convolution.convolve`. -/
def imgAt (img : Field) (j i : ℤ) : ℚ :=
  if 0 ≤ j ∧ j < (img.ny : ℤ) ∧ 0 ≤ i ∧ i < (img.nx : ℤ) then
    img.val j.toNat i.toNat
  else 0

/-- Sum of all kernel weights over the `(2r+1) × (2r+1)` support array
(`convolve` normalizes the kernel to unit sum by default). -/
def Kernel2D.total (k : Kernel2D) : ℚ :=
  ∑ a ∈ Finset.range (2 * k.radius + 1),
    ∑ b ∈ Finset.range (2 * k.radius + 1),
      k.weight ((a : ℤ) - (k.radius : ℤ)) ((b : ℤ) - (k.radius : ℤ))

/-- Semantics of `astropy.convolution.convolve` with the notebook's
default options: zero-filled boundary, kernel normalized to unit sum, and
output of the same shape as the input. -/
def convolve (img : Field) (k : Kernel2D) : Field where
  ny := img.ny
  nx := img.nx
  val := fun j i =>
    ∑ a ∈ Finset.range (2 * k.radius + 1),
      ∑ b ∈ Finset.range (2 * k.radius + 1),
        (k.weight ((a : ℤ) - (k.radius : ℤ)) ((b : ℤ) - (k.radius : ℤ)) /
            k.total) *
          imgAt img ((j : ℤ) - ((a : ℤ) - (k.radius : ℤ)))
            ((i : ℤ) - ((b : ℤ) - (k.radius : ℤ)))

/-- Elementwise difference of two fields (shape taken from the first, as
numpy broadcasting of equal-shape arrays). -/
def fieldSub (f g : Field) : Field :=
  ⟨f.ny, f.nx, fun j i => f.val j i - g.val j i⟩

/-- Mean over all cells, as `np.mean` on a 2D array. -/
def fieldMean (f : Field) : ℚ :=
  (∑ j ∈ Finset.range f.ny, ∑ i ∈ Finset.range f.nx, f.val j i) /
    ((f.ny : ℚ) * (f.nx : ℚ))

/-- Population variance over all cells: the square of `np.std` (numpy
default `ddof=0`). -/
def fieldVar (f : Field) : ℚ :=
  (∑ j ∈ Finset.range f.ny, ∑ i ∈ Finset.range f.nx,
      (f.val j i - fieldMean f) ^ 2) / ((f.ny : ℚ) * (f.nx : ℚ))

/-- The numerical-library primitives `dwarf_filter` calls.  They are
transcendental over the reals, so the embedding takes them as parameters:
`cosDeg t` stands for `np.cos(t * π / 180)`, `sqrt` for the square root
inside `np.std`, and `gauss s` for `Gaussian2DKernel(s, factor=1)`. -/
structure NumpyEnv where
  cosDeg : ℚ → ℚ
  sqrt : ℚ → ℚ
  gauss : ℚ → Kernel2D

/-- Line `ymean = (y.min() + y.max()) / 2.0` of `dwarf_filter`: the
declination value fed to the cosine correction. -/
def ymean (dec : List ℚ) : ℚ := (listMin dec + listMax dec) / 2

/-- Line `ny = np.rint(ydiff_arcmin).astype('int')` of `dwarf_filter`,
with `ydiff_arcmin = (y.max() - y.min()) * 60.0`. -/
def nyBins (dec : List ℚ) : ℤ :=
  np_rint ((listMax dec - listMin dec) * 60)

/-- Line `nx = np.rint(xdiff_angular_arcmin).astype('int')` of
`dwarf_filter`, with
`xdiff_angular_arcmin = (x.max() - x.min()) * np.cos(ymean*(pi/180)) * 60`. -/
def nxBins (cosDeg : ℚ → ℚ) (ra dec : List ℚ) : ℤ :=
  np_rint ((listMax ra - listMin ra) * cosDeg (ymean dec) * 60)

/-- The standard-deviation argument `dwarf_filter` passes to
`Gaussian2DKernel`: the literal `fwhm_small/2.35` (and `fwhm_big/2.35`)
from the source. -/
def fwhmToStddev (fwhm : ℚ) : ℚ := fwhm / (235 / 100)

/-- Validation failures that the specification's `detect` operation
reports through its dedicated `InvalidInputError`. -/
inductive InvalidReason
  | emptyInput
  | mismatchedLengths
  | nonFiniteValue
  | zeroBins
deriving DecidableEq

/-- Errors observable from the notebook pipeline.  `dwarf_filter` itself
performs no validation: the three `valueError` constructors stand for the
`ValueError`s numpy raises mid-computation (empty-array reduction in
`min`/`max`, ragged input to `histogram2d`, and a non-positive bin count
in `histogram`), while `invalidInputError` stands for the specification's
dedicated `InvalidInputError`, which no code path of the notebook
produces. -/
inductive DetectError
  | valueErrorEmptyReduction
  | valueErrorLengthMismatch
  | valueErrorNonPositiveBins
  | invalidInputError (reason : InvalidReason)
deriving DecidableEq

/-- The tuple `dwarf_filter` returns:
`raw_hist, extent, delta, clipped, sigma`. -/
structure DwarfResult where
  raw_hist : Field
  extent : ℚ × ℚ × ℚ × ℚ
  delta : Field
  clipped : Field
  sigma : ℚ

/-- The successful path of `dwarf_filter`, reached when none of the numpy
calls inside it raises.  Follows the notebook line by line: histogram of
the raw counts transposed (`Counts.T`), two Gaussian convolutions with
standard deviations `fwhm/2.35`, their difference, and the copy of the
difference floored at its own mean. -/
def dwarfCore (env : NumpyEnv) (ra dec : List ℚ) (fwhm_small fwhm_big : ℚ) :
    DwarfResult :=
  let xmin := listMin ra
  let xmax := listMax ra
  let ymin := listMin dec
  let ymax := listMax dec
  let nx := (nxBins env.cosDeg ra dec).toNat
  let ny := (nyBins dec).toNat
  let raw : Field :=
    ⟨ny, nx, fun j i => (hist2dCount ra dec xmin xmax ymin ymax nx ny i j : ℚ)⟩
  let kernel_small := env.gauss (fwhmToStddev fwhm_small)
  let kernel_big := env.gauss (fwhmToStddev fwhm_big)
  let conv_big := convolve raw kernel_big
  let conv_small := convolve raw kernel_small
  let delta := fieldSub conv_small conv_big
  let floor := fieldMean delta
  let clipped : Field :=
    ⟨delta.ny, delta.nx,
      fun j i => if delta.val j i < floor then floor else delta.val j i⟩
  ⟨raw, (xmin, xmax, ymin, ymax), delta, clipped, env.sqrt (fieldVar delta)⟩

/-- The notebook function `dwarf_filter(ra, dec, fwhm_small, fwhm_big)`.
The error cases reproduce where the numpy calls inside it raise:
`y.min()` or `x.max()` on an empty array, `histogram2d` on sequences of
unequal length, and `histogram` on a non-positive bin count (which is how
a degenerate angular extent surfaces). -/
def dwarf_filter (env : NumpyEnv) (ra dec : List ℚ)
    (fwhm_small fwhm_big : ℚ) : Except DetectError DwarfResult :=
  if dec = [] then Except.error DetectError.valueErrorEmptyReduction
  else if ra = [] then Except.error DetectError.valueErrorEmptyReduction
  else if ra.length ≠ dec.length then
    Except.error DetectError.valueErrorLengthMismatch
  else if nxBins env.cosDeg ra dec ≤ 0 ∨ nyBins dec ≤ 0 then
    Except.error DetectError.valueErrorNonPositiveBins
  else Except.ok (dwarfCore env ra dec fwhm_small fwhm_big)

/-- Whether a pipeline outcome is the specification's
`InvalidInputError`. -/
def raisedInvalidInput (r : Except DetectError DwarfResult) : Bool :=
  match r with
  | Except.error (DetectError.invalidInputError _) => true
  | _ => false

/-- Modelled from the spec, for comparison with the source's `ymean`:
"the arithmetic mean of all dec values", the quantity the specification
says is used in the cosine correction. -/
def arithmeticMean (l : List ℚ) : ℚ := l.sum / (l.length : ℚ)

/-- Semantics of `np.arange(start, stop, step)` for positive rational
step: the values `start + i*step` for `0 ≤ i < ⌈(stop - start)/step⌉`. -/
def np_arange (start stop step : ℚ) : List ℚ :=
  (List.range (⌈(stop - start) / step⌉.toNat)).map
    (fun i : ℕ => start + (i : ℚ) * step)

/-- Sky coordinate the notebook's peak cell assigns to pixel index `i` of
an axis with `n` bins and extent bounds `[lo, hi]`:
`step_size = (stop-start)/n`, `vec = np.arange(start, stop+step_size,
step_size)`, coordinate `vec[i]`. -/
def peakCoord (lo hi : ℚ) (n : ℕ) (i : ℕ) : ℚ :=
  (np_arange lo (hi + (hi - lo) / (n : ℚ)) ((hi - lo) / (n : ℚ))).getD i 0

/-- Modelled from the spec: `photutils.find_peaks` is an external library
call whose source is not part of this repository, so its peak predicate is
taken from the specification's words: "a cell is a peak if its value
exceeds `threshold` and it is the maximum value within a square
neighborhood of side `box_size` centered on it (...; ties broken by lowest
coordinate index, for determinism)". -/
def isPeak (f : Field) (threshold : ℚ) (box_size : ℕ) (j i : ℕ) : Bool :=
  let half : ℤ := (box_size : ℤ) / 2
  decide (threshold < f.val j i) &&
  decide (∀ j2 ∈ Finset.Icc ((j : ℤ) - half) ((j : ℤ) + half),
    ∀ i2 ∈ Finset.Icc ((i : ℤ) - half) ((i : ℤ) + half),
      0 ≤ j2 → j2 < (f.ny : ℤ) → 0 ≤ i2 → i2 < (f.nx : ℤ) →
        f.val j2.toNat i2.toNat < f.val j i ∨
        (f.val j2.toNat i2.toNat = f.val j i ∧
          ((j : ℤ) < j2 ∨ (j2 = (j : ℤ) ∧ (i : ℤ) ≤ i2))))

/-- Modelled from the spec: the candidate list of `find_peaks` — every
cell of the field satisfying the peak predicate, scanned in row-major
order, each carrying its pixel coordinates and the field value there. -/
def find_candidate_peaks (f : Field) (threshold : ℚ) (box_size : ℕ) :
    List (ℕ × ℕ × ℚ) :=
  ((List.range f.ny).flatMap (fun j =>
      (List.range f.nx).map (fun i => (j, i)))).filterMap
    (fun c =>
      if isPeak f threshold box_size c.1 c.2 then
        some (c.1, c.2, f.val c.1 c.2)
      else none)

/-- A concrete stand-in environment for witnesses: cosine replaced by the
constant 1 (its value at declination 0), square root by 0, and the
Gaussian-kernel constructor by a uniform kernel whose radius is 1 for
standard deviations at least 1 and 0 otherwise. -/
def envEx : NumpyEnv :=
  ⟨fun _ => 1, fun _ => 0, fun s => ⟨if 1 ≤ s then 1 else 0, fun _ _ => 1⟩⟩

/-- Concrete right ascensions spanning two arcminutes. -/
def raEx : List ℚ := [0, 1/30, 1/30]

/-- Concrete declinations spanning one arcminute. -/
def decEx : List ℚ := [0, 1/60, 1/60]

/-- The all-zero field. -/
def emptyField : Field := ⟨0, 0, fun _ _ => 0⟩

/-- Default result used only to extract the value of a successful run. -/
def defaultResult : DwarfResult :=
  ⟨emptyField, (0, 0, 0, 0), emptyField, emptyField, 0⟩

/-- The result of the concrete example run of `dwarf_filter`. -/
def resEx : DwarfResult :=
  (dwarf_filter envEx raEx decEx 2 20).toOption.getD defaultResult

/-- Membership of a value in a histogram bin stated through the bin
edges, as the specification words it: with edges `e_k = a + k*(b-a)/n`,
bin `i` covers `[e_i, e_(i+1))`, and the last bin also contains `b`. -/
def inBinEdges (a b : ℚ) (n i : ℕ) (v : ℚ) : Prop :=
  a + i * (b - a) / n ≤ v ∧
    (v < a + (i + 1) * (b - a) / n ∨ (i = n - 1 ∧ v ≤ b))

instance (a b : ℚ) (n i : ℕ) (v : ℚ) : Decidable (inBinEdges a b n i v) := by
  unfold inBinEdges
  infer_instance

/-- Establishing a successful run from the four degeneracy checks. -/
theorem dwarf_filter_ok_of_checks {env : NumpyEnv} {ra dec : List ℚ}
    {f1 f2 : ℚ} (h1 : dec ≠ []) (h2 : ra ≠ []) (h3 : ra.length = dec.length)
    (h4 : 0 < nxBins env.cosDeg ra dec) (h5 : 0 < nyBins dec) :
    dwarf_filter env ra dec f1 f2 =
      Except.ok (dwarfCore env ra dec f1 f2) := by
  unfold dwarf_filter
  rw [if_neg h1, if_neg h2, if_neg (by simpa using h3),
    if_neg (by push_neg; omega)]

theorem nxBins_ex : nxBins envEx.cosDeg raEx decEx = 2 := by
  simp only [nxBins, ymean, listMin, listMax, envEx, raEx, decEx, np_rint]
  norm_num [List.foldl]

theorem nyBins_ex : nyBins decEx = 1 := by
  simp only [nyBins, listMin, listMax, decEx, np_rint]
  norm_num [List.foldl]

theorem resEx_eq : resEx = dwarfCore envEx raEx decEx 2 20 := by
  rw [resEx,
    dwarf_filter_ok_of_checks (by simp [decEx]) (by simp [raEx])
      (by simp [raEx, decEx]) (by rw [nxBins_ex]; norm_num)
      (by rw [nyBins_ex]; norm_num)]
  rfl

theorem resEx_ok : dwarf_filter envEx raEx decEx 2 20 = Except.ok resEx := by
  rw [resEx_eq]
  exact dwarf_filter_ok_of_checks (by simp [decEx]) (by simp [raEx])
    (by simp [raEx, decEx]) (by rw [nxBins_ex]; norm_num)
    (by rw [nyBins_ex]; norm_num)

/-- Inversion of a successful `dwarf_filter` run: none of the degeneracy
conditions held and the result is the core computation. -/
theorem dwarf_filter_ok_elim {env : NumpyEnv} {ra dec : List ℚ}
    {f1 f2 : ℚ} {res : DwarfResult}
    (h : dwarf_filter env ra dec f1 f2 = Except.ok res) :
    dec ≠ [] ∧ ra ≠ [] ∧ ra.length = dec.length ∧
    0 < nxBins env.cosDeg ra dec ∧ 0 < nyBins dec ∧
    res = dwarfCore env ra dec f1 f2 := by
  unfold dwarf_filter at h
  split at h
  · exact absurd h (by simp)
  · split at h
    · exact absurd h (by simp)
    · split at h
      · exact absurd h (by simp)
      · split at h
        · exact absurd h (by simp)
        · rename_i h1 h2 h3 h4
          push_neg at h3 h4
          refine ⟨h1, h2, h3, ?_, ?_, ?_⟩
          · omega
          · omega
          · exact (Except.ok.injEq _ _).mp h.symm

theorem foldl_min_le_init (l : List ℚ) : ∀ acc : ℚ, l.foldl min acc ≤ acc := by
  induction l with
  | nil => intro acc; exact le_refl acc
  | cons h t ih =>
      intro acc
      exact le_trans (ih (min acc h)) (min_le_left _ _)

theorem foldl_min_le_mem (l : List ℚ) :
    ∀ acc a, a ∈ l → l.foldl min acc ≤ a := by
  induction l with
  | nil => intro _ a ha; exact absurd ha (List.not_mem_nil a)
  | cons h t ih =>
      intro acc a ha
      rcases List.mem_cons.mp ha with rfl | ha2
      · exact le_trans (foldl_min_le_init t (min acc a)) (min_le_right _ _)
      · exact ih (min acc h) a ha2

theorem init_le_foldl_max (l : List ℚ) : ∀ acc : ℚ, acc ≤ l.foldl max acc := by
  induction l with
  | nil => intro acc; exact le_refl acc
  | cons h t ih =>
      intro acc
      exact le_trans (le_max_left _ _) (ih (max acc h))

theorem mem_le_foldl_max (l : List ℚ) :
    ∀ acc a, a ∈ l → a ≤ l.foldl max acc := by
  induction l with
  | nil => intro _ a ha; exact absurd ha (List.not_mem_nil a)
  | cons h t ih =>
      intro acc a ha
      rcases List.mem_cons.mp ha with rfl | ha2
      · exact le_trans (le_max_right _ _) (init_le_foldl_max t (max acc a))
      · exact ih (max acc h) a ha2

theorem listMin_le_of_mem {l : List ℚ} {a : ℚ} (h : a ∈ l) : listMin l ≤ a := by
  cases l with
  | nil => exact absurd h (List.not_mem_nil a)
  | cons x t =>
      rcases List.mem_cons.mp h with rfl | h2
      · exact foldl_min_le_init t a
      · exact foldl_min_le_mem t x a h2

theorem le_listMax_of_mem {l : List ℚ} {a : ℚ} (h : a ∈ l) : a ≤ listMax l := by
  cases l with
  | nil => exact absurd h (List.not_mem_nil a)
  | cons x t =>
      rcases List.mem_cons.mp h with rfl | h2
      · exact init_le_foldl_max t a
      · exact mem_le_foldl_max t x a h2

theorem foldl_min_attained (l : List ℚ) :
    ∀ acc : ℚ, l.foldl min acc = acc ∨ l.foldl min acc ∈ l := by
  induction l with
  | nil => intro acc; left; rfl
  | cons h t ih =>
      intro acc
      rcases ih (min acc h) with heq | hmem
      · rw [List.foldl_cons, heq]
        rcases min_cases acc h with ⟨h1, _⟩ | ⟨h1, _⟩
        · left; exact h1
        · right; rw [h1]; exact List.mem_cons_self _ _
      · right; exact List.mem_cons_of_mem _ hmem

theorem foldl_max_attained (l : List ℚ) :
    ∀ acc : ℚ, l.foldl max acc = acc ∨ l.foldl max acc ∈ l := by
  induction l with
  | nil => intro acc; left; rfl
  | cons h t ih =>
      intro acc
      rcases ih (max acc h) with heq | hmem
      · rw [List.foldl_cons, heq]
        rcases max_cases acc h with ⟨h1, _⟩ | ⟨h1, _⟩
        · left; exact h1
        · right; rw [h1]; exact List.mem_cons_self _ _
      · right; exact List.mem_cons_of_mem _ hmem

theorem listMin_mem {l : List ℚ} (h : l ≠ []) : listMin l ∈ l := by
  cases l with
  | nil => exact absurd rfl h
  | cons x t =>
      rcases foldl_min_attained t x with heq | hmem
      · rw [listMin, heq]; exact List.mem_cons_self _ _
      · exact List.mem_cons_of_mem _ hmem

theorem listMax_mem {l : List ℚ} (h : l ≠ []) : listMax l ∈ l := by
  cases l with
  | nil => exact absurd rfl h
  | cons x t =>
      rcases foldl_max_attained t x with heq | hmem
      · rw [listMax, heq]; exact List.mem_cons_self _ _
      · exact List.mem_cons_of_mem _ hmem

theorem listMin_le_listMax {l : List ℚ} (h : l ≠ []) :
    listMin l ≤ listMax l :=
  listMin_le_of_mem (listMax_mem h)

theorem listMin_eq_of_const {l : List ℚ} {v : ℚ} (h : l ≠ [])
    (hc : ∀ x ∈ l, x = v) : listMin l = v :=
  hc _ (listMin_mem h)

theorem listMax_eq_of_const {l : List ℚ} {v : ℚ} (h : l ≠ [])
    (hc : ∀ x ∈ l, x = v) : listMax l = v :=
  hc _ (listMax_mem h)

theorem np_rint_zero : np_rint 0 = 0 := by
  norm_num [np_rint]

theorem np_rint_pos {q : ℚ} (h : 0 < np_rint q) : 0 < q := by
  by_contra hq
  push_neg at hq
  have hfl : ⌊q⌋ ≤ 0 := by
    calc ⌊q⌋ ≤ ⌊(0:ℚ)⌋ := Int.floor_le_floor hq
      _ = 0 := Int.floor_zero
  unfold np_rint at h
  simp only at h
  split_ifs at h with h1 h2 h3
  · omega
  · have hf0 : ⌊q⌋ = 0 := by omega
    rw [hf0] at h2
    push_cast at h2
    linarith
  · omega
  · have hf0 : ⌊q⌋ = 0 := by omega
    rw [hf0] at h1
    push_cast at h1
    linarith

theorem binIdx_lt {a b v : ℚ} {n : ℕ} (hab : a < b) (hn : 0 < n)
    (hva : a ≤ v) (hvb : v ≤ b) : binIdx a b n v < n := by
  unfold binIdx
  split_ifs with hvb2
  · omega
  · have hvb3 : v < b := lt_of_le_of_ne hvb hvb2
    have hba : (0:ℚ) < b - a := sub_pos.mpr hab
    have hnq : (0:ℚ) < (n:ℚ) := by exact_mod_cast hn
    have hq0 : (0:ℚ) ≤ (v - a) * n / (b - a) :=
      div_nonneg (mul_nonneg (sub_nonneg.mpr hva) hnq.le) hba.le
    have hqn : (v - a) * n / (b - a) < n := by
      rw [div_lt_iff hba]
      calc (v - a) * n < (b - a) * n :=
            mul_lt_mul_of_pos_right (by linarith) hnq
        _ = n * (b - a) := mul_comm _ _
    have h1 : ⌊(v - a) * n / (b - a)⌋ < (n:ℤ) :=
      Int.floor_lt.mpr (by exact_mod_cast hqn)
    have h2 : 0 ≤ ⌊(v - a) * n / (b - a)⌋ := Int.floor_nonneg.mpr hq0
    omega

theorem binIdx_eq_iff {a b v : ℚ} {n i : ℕ} (hab : a < b) (hn : 0 < n)
    (hi : i < n) (hva : a ≤ v) (hvb : v ≤ b) :
    binIdx a b n v = i ↔ inBinEdges a b n i v := by
  have hba : (0:ℚ) < b - a := sub_pos.mpr hab
  have hnq : (0:ℚ) < (n:ℚ) := by exact_mod_cast hn
  have hlowIff : ∀ k : ℕ,
      (a + (k:ℚ) * (b - a) / n ≤ v ↔ (k:ℚ) ≤ (v - a) * n / (b - a)) := by
    intro k
    rw [le_div_iff hba]
    constructor
    · intro h
      have h2 : (k:ℚ) * (b - a) / n ≤ v - a := by linarith
      rw [div_le_iff hnq] at h2
      linarith
    · intro h
      have h2 : (k:ℚ) * (b - a) / n ≤ v - a := by
        rw [div_le_iff hnq]; linarith
      linarith
  have hupIff : ∀ k : ℕ,
      (v < a + (k:ℚ) * (b - a) / n ↔ (v - a) * n / (b - a) < (k:ℚ)) := by
    intro k
    rw [div_lt_iff hba]
    constructor
    · intro h
      have h2 : v - a < (k:ℚ) * (b - a) / n := by linarith
      rw [lt_div_iff hnq] at h2
      linarith
    · intro h
      have h2 : v - a < (k:ℚ) * (b - a) / n := by
        rw [lt_div_iff hnq]; linarith
      linarith
  unfold binIdx inBinEdges
  split_ifs with hveq
  · subst hveq
    constructor
    · intro hidx
      refine ⟨?_, Or.inr ⟨hidx.symm, le_refl _⟩⟩
      have hin : (i:ℚ) ≤ (n:ℚ) := by exact_mod_cast hi.le
      have hle : (i:ℚ) * (v - a) / n ≤ (v - a) := by
        rw [div_le_iff hnq]
        calc (i:ℚ) * (v - a) ≤ (n:ℚ) * (v - a) :=
              mul_le_mul_of_nonneg_right hin hba.le
          _ = (v - a) * n := mul_comm _ _
      linarith
    · rintro ⟨hlow, hup | ⟨hieq, -⟩⟩
      · exfalso
        have h2 : (v - a) < ((i:ℚ) + 1) * (v - a) / n := by
          linarith
        rw [lt_div_iff hnq] at h2
        have h3 : (n:ℚ) < (i:ℚ) + 1 := by
          have h4 : (n:ℚ) * (v - a) < ((i:ℚ) + 1) * (v - a) := by linarith
          exact (mul_lt_mul_right hba).mp h4
        have h5 : n < i + 1 := by exact_mod_cast h3
        omega
      · omega
  · have hvb3 : v < b := lt_of_le_of_ne hvb hveq
    have hq0 : (0:ℚ) ≤ (v - a) * n / (b - a) :=
      div_nonneg (mul_nonneg (sub_nonneg.mpr hva) hnq.le) hba.le
    have hfl0 : 0 ≤ ⌊(v - a) * n / (b - a)⌋ := Int.floor_nonneg.mpr hq0
    have hqn : (v - a) * n / (b - a) < n := by
      rw [div_lt_iff hba]
      calc (v - a) * n < (b - a) * n :=
            mul_lt_mul_of_pos_right (by linarith) hnq
        _ = n * (b - a) := mul_comm _ _
    constructor
    · intro hidx
      have hfe : ⌊(v - a) * n / (b - a)⌋ = (i:ℤ) := by omega
      obtain ⟨hge, hlt⟩ := Int.floor_eq_iff.mp hfe
      refine ⟨(hlowIff i).mpr (by exact_mod_cast hge), Or.inl ?_⟩
      have := (hupIff (i+1)).mpr (by push_cast at hlt ⊢; exact hlt)
      push_cast at this ⊢
      exact this
    · rintro ⟨hlow, hup | ⟨hieq, -⟩⟩
      · have h1 : (i:ℚ) ≤ (v - a) * n / (b - a) := (hlowIff i).mp hlow
        have h2 : (v - a) * n / (b - a) < (i:ℚ) + 1 := by
          have h3 := (hupIff (i+1)).mp (by push_cast; exact hup)
          push_cast at h3
          linarith
        have hfe : ⌊(v - a) * n / (b - a)⌋ = (i:ℤ) := by
          rw [Int.floor_eq_iff]
          exact ⟨by exact_mod_cast h1, by exact_mod_cast h2⟩
        omega
      · subst hieq
        have h1 : ((n - 1 : ℕ):ℚ) ≤ (v - a) * n / (b - a) := (hlowIff (n-1)).mp hlow
        have hcast : ((n - 1 : ℕ):ℚ) = (n:ℚ) - 1 := by
          have h4 : 1 ≤ n := hn
          push_cast [h4]
          ring
        have hfe : ⌊(v - a) * n / (b - a)⌋ = ((n:ℤ) - 1) := by
          rw [Int.floor_eq_iff]
          constructor
          · rw [hcast] at h1
            push_cast
            exact h1
          · push_cast
            linarith
        omega

theorem sum_filter_count (bx b2 : ℚ → ℕ) (nx ny : ℕ) :
    ∀ l : List (ℚ × ℚ), (∀ p ∈ l, bx p.1 < nx ∧ b2 p.2 < ny) →
    (∑ j ∈ Finset.range ny, ∑ i ∈ Finset.range nx,
        (l.filter (fun p => bx p.1 == i && b2 p.2 == j)).length) = l.length := by
  intro l
  induction l with
  | nil => intro _; simp
  | cons p t ih =>
      intro hb
      have hp := hb p (List.mem_cons_self _ _)
      have ht := ih (fun q hq => hb q (List.mem_cons_of_mem _ hq))
      have hsplit : ∀ j i,
          ((p :: t).filter (fun q => bx q.1 == i && b2 q.2 == j)).length =
            (if bx p.1 = i ∧ b2 p.2 = j then 1 else 0) +
              (t.filter (fun q => bx q.1 == i && b2 q.2 == j)).length := by
        intro j i
        rw [List.filter_cons]
        by_cases hc : bx p.1 = i ∧ b2 p.2 = j
        · have hbool : (bx p.1 == i && b2 p.2 == j) = true := by
            simp [hc.1, hc.2]
          simp [hbool, hc]
          omega
        · have hbool : (bx p.1 == i && b2 p.2 == j) = false := by
            rcases not_and_or.mp hc with h | h <;> simp [h]
          simp [hbool, hc]
      have hind : (∑ j ∈ Finset.range ny, ∑ i ∈ Finset.range nx,
          if bx p.1 = i ∧ b2 p.2 = j then 1 else 0) = 1 := by
        have h1 : ∀ j, (∑ i ∈ Finset.range nx,
            if bx p.1 = i ∧ b2 p.2 = j then (1:ℕ) else 0) =
              if b2 p.2 = j then 1 else 0 := by
          intro j
          simp only [ite_and]
          rw [Finset.sum_ite_eq, if_pos (Finset.mem_range.mpr hp.1)]
        simp only [h1]
        rw [Finset.sum_ite_eq, if_pos (Finset.mem_range.mpr hp.2)]
      calc (∑ j ∈ Finset.range ny, ∑ i ∈ Finset.range nx,
              ((p :: t).filter (fun q => bx q.1 == i && b2 q.2 == j)).length)
          = ∑ j ∈ Finset.range ny, ∑ i ∈ Finset.range nx,
              ((if bx p.1 = i ∧ b2 p.2 = j then 1 else 0) +
                (t.filter (fun q => bx q.1 == i && b2 q.2 == j)).length) := by
            exact Finset.sum_congr rfl fun j _ =>
              Finset.sum_congr rfl fun i _ => hsplit j i
        _ = (∑ j ∈ Finset.range ny, ∑ i ∈ Finset.range nx,
              if bx p.1 = i ∧ b2 p.2 = j then 1 else 0) +
            (∑ j ∈ Finset.range ny, ∑ i ∈ Finset.range nx,
              (t.filter (fun q => bx q.1 == i && b2 q.2 == j)).length) := by
            simp [Finset.sum_add_distrib]
        _ = 1 + t.length := by rw [hind, ht]
        _ = (p :: t).length := by simp [List.length_cons]; omega

theorem sum_hist2dCount (ra dec : List ℚ) (a b c d : ℚ) (nx ny : ℕ)
    (hb : ∀ p ∈ ra.zip dec,
      binIdx a b nx p.1 < nx ∧ binIdx c d ny p.2 < ny) :
    (∑ j ∈ Finset.range ny, ∑ i ∈ Finset.range nx,
        hist2dCount ra dec a b c d nx ny i j) = (ra.zip dec).length := by
  unfold hist2dCount
  exact sum_filter_count _ _ nx ny (ra.zip dec) hb

theorem resEx_nx : resEx.raw_hist.nx = 2 := by
  rw [resEx_eq]
  simp [dwarfCore, nxBins_ex]

theorem resEx_ny : resEx.raw_hist.ny = 1 := by
  rw [resEx_eq]
  simp [dwarfCore, nyBins_ex]

theorem deltaEx_00 : resEx.delta.val 0 0 = 2/3 := by
  rw [resEx_eq]
  have h2 : Int.toNat 2 = 2 := rfl
  have b1 : ((1:ℕ) == 0) = false := rfl
  have b2 : ((0:ℕ) == 0) = true := rfl
  have b3 : ((1:ℕ) == 1) = true := rfl
  have b4 : ((0:ℕ) == 1) = false := rfl
  simp only [dwarfCore, nxBins_ex, nyBins_ex]
  simp only [fieldSub, convolve, imgAt, Kernel2D.total, envEx, fwhmToStddev]
  norm_num [Finset.sum_range_succ, hist2dCount, binIdx, raEx, decEx,
    listMin, listMax, h2, b1, b2, b3, b4, List.foldl, List.zip, List.filter,
    Finset.filter_singleton]

theorem meanEx : fieldMean resEx.delta = 7/6 := by
  rw [resEx_eq]
  have h2 : Int.toNat 2 = 2 := rfl
  have b1 : ((1:ℕ) == 0) = false := rfl
  have b2 : ((0:ℕ) == 0) = true := rfl
  have b3 : ((1:ℕ) == 1) = true := rfl
  have b4 : ((0:ℕ) == 1) = false := rfl
  simp only [dwarfCore, nxBins_ex, nyBins_ex]
  simp only [fieldMean, fieldSub, convolve, imgAt, Kernel2D.total, envEx,
    fwhmToStddev]
  norm_num [Finset.sum_range_succ, hist2dCount, binIdx, raEx, decEx,
    listMin, listMax, h2, b1, b2, b3, b4, List.foldl, List.zip, List.filter,
    Finset.filter_singleton]

/-- C2 counterexample: the notebook passes `fwhm/2.35` to
`Gaussian2DKernel`, so at `fwhm_small = 2` the standard deviation is
`2/2.35 = 40/47`, which differs from the claimed `2/2.354820045`. -/
theorem c2_counterexample :
    fwhmToStddev 2 ≠ 2 / (2354820045 / 1000000000) := by
  norm_num [fwhmToStddev]

/-- C2 (amended): the standard deviations of the two smoothing kernels
equal `fwhm_small/2.35` and `fwhm_big/2.35` (the truncated constant 2.35,
not 2.354820045), and the filtered field is built from the kernels with
exactly those standard deviations. -/
theorem c2_kernel_stddev (env : NumpyEnv) (ra dec : List ℚ) (f1 f2 : ℚ)
    (res : DwarfResult) (j i : ℕ)
    (h : dwarf_filter env ra dec f1 f2 = Except.ok res) :
    fwhmToStddev f1 = f1 * 20 / 47 ∧ fwhmToStddev f2 = f2 * 20 / 47 ∧
    res.delta.val j i =
      (convolve res.raw_hist (env.gauss (fwhmToStddev f1))).val j i -
        (convolve res.raw_hist (env.gauss (fwhmToStddev f2))).val j i := by
  obtain ⟨-, -, -, -, -, hres⟩ := dwarf_filter_ok_elim h
  subst hres
  refine ⟨?_, ?_, rfl⟩
  · unfold fwhmToStddev; ring
  · unfold fwhmToStddev; ring

theorem c2_kernel_stddev_witness :
    fwhmToStddev 2 = 2 * 20 / 47 ∧ fwhmToStddev 20 = 20 * 20 / 47 ∧
    resEx.delta.val 0 0 =
      (convolve resEx.raw_hist (envEx.gauss (fwhmToStddev 2))).val 0 0 -
        (convolve resEx.raw_hist (envEx.gauss (fwhmToStddev 20))).val 0 0 :=
  c2_kernel_stddev envEx raEx decEx 2 20 resEx 0 0 resEx_ok

/-- C3 counterexample: the declination the code feeds to the cosine
correction is `(y.min() + y.max())/2`, the midpoint of the extremes; on
`dec = [0, 0, 6]` this is 3 while the arithmetic mean of all values is 2. -/
theorem c3_counterexample :
    ymean [0, 0, 6] ≠ arithmeticMean [0, 0, 6] := by
  norm_num [ymean, arithmeticMean, listMin, listMax, List.foldl]

/-- C3 (amended): the declination used in the `cos` correction of the RA
extent is the midpoint `(min dec + max dec)/2` of the declination range,
not the arithmetic mean of all dec values. -/
theorem c3_cos_argument (env : NumpyEnv) (ra dec : List ℚ) (f1 f2 : ℚ)
    (res : DwarfResult)
    (h : dwarf_filter env ra dec f1 f2 = Except.ok res) :
    ymean dec = (listMin dec + listMax dec) / 2 ∧
    res.raw_hist.nx =
      (np_rint ((listMax ra - listMin ra) *
        env.cosDeg ((listMin dec + listMax dec) / 2) * 60)).toNat := by
  obtain ⟨-, -, -, -, -, hres⟩ := dwarf_filter_ok_elim h
  subst hres
  exact ⟨rfl, rfl⟩

theorem c3_cos_argument_witness :
    ymean decEx = (listMin decEx + listMax decEx) / 2 ∧
    resEx.raw_hist.nx =
      (np_rint ((listMax raEx - listMin raEx) *
        envEx.cosDeg ((listMin decEx + listMax decEx) / 2) * 60)).toNat :=
  c3_cos_argument envEx raEx decEx 2 20 resEx resEx_ok

/-- C4: the filtered field is the small-kernel convolution minus the
big-kernel convolution of the raw histogram, in that order, with the same
shape as the histogram. -/
theorem c4_filtered_field (env : NumpyEnv) (ra dec : List ℚ) (f1 f2 : ℚ)
    (res : DwarfResult) (j i : ℕ)
    (h : dwarf_filter env ra dec f1 f2 = Except.ok res) :
    res.delta.ny = res.raw_hist.ny ∧ res.delta.nx = res.raw_hist.nx ∧
    res.delta.val j i =
      (convolve res.raw_hist (env.gauss (fwhmToStddev f1))).val j i -
        (convolve res.raw_hist (env.gauss (fwhmToStddev f2))).val j i := by
  obtain ⟨-, -, -, -, -, hres⟩ := dwarf_filter_ok_elim h
  subst hres
  exact ⟨rfl, rfl, rfl⟩

theorem c4_filtered_field_witness :
    resEx.delta.ny = resEx.raw_hist.ny ∧ resEx.delta.nx = resEx.raw_hist.nx ∧
    resEx.delta.val 0 1 =
      (convolve resEx.raw_hist (envEx.gauss (fwhmToStddev 2))).val 0 1 -
        (convolve resEx.raw_hist (envEx.gauss (fwhmToStddev 20))).val 0 1 :=
  c4_filtered_field envEx raEx decEx 2 20 resEx 0 1 resEx_ok

/-- C5: the clipped field is the filtered field floored at the filtered
field's own mean: entries strictly below the mean become the mean, all
others are unchanged. -/
theorem c5_clipped_floor (env : NumpyEnv) (ra dec : List ℚ) (f1 f2 : ℚ)
    (res : DwarfResult) (j i : ℕ)
    (h : dwarf_filter env ra dec f1 f2 = Except.ok res) :
    res.clipped.ny = res.delta.ny ∧ res.clipped.nx = res.delta.nx ∧
    res.clipped.val j i =
      if res.delta.val j i < fieldMean res.delta then fieldMean res.delta
      else res.delta.val j i := by
  obtain ⟨-, -, -, -, -, hres⟩ := dwarf_filter_ok_elim h
  subst hres
  exact ⟨rfl, rfl, rfl⟩

theorem c5_clipped_floor_witness :
    resEx.clipped.ny = resEx.delta.ny ∧ resEx.clipped.nx = resEx.delta.nx ∧
    resEx.clipped.val 0 0 =
      if resEx.delta.val 0 0 < fieldMean resEx.delta then fieldMean resEx.delta
      else resEx.delta.val 0 0 :=
  c5_clipped_floor envEx raEx decEx 2 20 resEx 0 0 resEx_ok

/-- C9: the flooring step does not alter the returned filtered field: at
any cell strictly below the mean the filtered field still holds the raw
convolution difference, while the clipped field holds the mean, so the
two returned arrays differ there. -/
theorem c9_delta_unmutated (env : NumpyEnv) (ra dec : List ℚ) (f1 f2 : ℚ)
    (res : DwarfResult) (j i : ℕ)
    (h : dwarf_filter env ra dec f1 f2 = Except.ok res)
    (hlt : res.delta.val j i < fieldMean res.delta) :
    res.delta.val j i =
      (convolve res.raw_hist (env.gauss (fwhmToStddev f1))).val j i -
        (convolve res.raw_hist (env.gauss (fwhmToStddev f2))).val j i ∧
    res.clipped.val j i = fieldMean res.delta ∧
    res.clipped.val j i ≠ res.delta.val j i := by
  obtain ⟨-, -, -, -, -, hres⟩ := dwarf_filter_ok_elim h
  subst hres
  have hc : (dwarfCore env ra dec f1 f2).clipped.val j i =
      if (dwarfCore env ra dec f1 f2).delta.val j i <
          fieldMean (dwarfCore env ra dec f1 f2).delta then
        fieldMean (dwarfCore env ra dec f1 f2).delta
      else (dwarfCore env ra dec f1 f2).delta.val j i := rfl
  refine ⟨rfl, ?_, ?_⟩
  · rw [hc, if_pos hlt]
  · rw [hc, if_pos hlt]
    exact ne_of_gt hlt

theorem c9_delta_unmutated_witness :
    resEx.delta.val 0 0 =
      (convolve resEx.raw_hist (envEx.gauss (fwhmToStddev 2))).val 0 0 -
        (convolve resEx.raw_hist (envEx.gauss (fwhmToStddev 20))).val 0 0 ∧
    resEx.clipped.val 0 0 = fieldMean resEx.delta ∧
    resEx.clipped.val 0 0 ≠ resEx.delta.val 0 0 :=
  c9_delta_unmutated envEx raEx decEx 2 20 resEx 0 0 resEx_ok
    (by rw [deltaEx_00, meanEx]; norm_num)

/-- C10: the three returned arrays share the shape `(ny, nx)` - the
transpose of the histogram routine's natural `(nx, ny)` - so the row
index is the declination bin and the column index the RA bin. -/
theorem c10_shapes (env : NumpyEnv) (ra dec : List ℚ) (f1 f2 : ℚ)
    (res : DwarfResult) (j i : ℕ)
    (h : dwarf_filter env ra dec f1 f2 = Except.ok res) :
    res.raw_hist.ny = (nyBins dec).toNat ∧
    res.raw_hist.nx = (nxBins env.cosDeg ra dec).toNat ∧
    res.delta.ny = res.raw_hist.ny ∧ res.delta.nx = res.raw_hist.nx ∧
    res.clipped.ny = res.raw_hist.ny ∧ res.clipped.nx = res.raw_hist.nx ∧
    res.raw_hist.val j i =
      (hist2dCount ra dec (listMin ra) (listMax ra) (listMin dec)
        (listMax dec) (nxBins env.cosDeg ra dec).toNat (nyBins dec).toNat
        i j : ℚ) := by
  obtain ⟨-, -, -, -, -, hres⟩ := dwarf_filter_ok_elim h
  subst hres
  exact ⟨rfl, rfl, rfl, rfl, rfl, rfl, rfl⟩

theorem c10_shapes_witness :
    resEx.raw_hist.ny = (nyBins decEx).toNat ∧
    resEx.raw_hist.nx = (nxBins envEx.cosDeg raEx decEx).toNat ∧
    resEx.delta.ny = resEx.raw_hist.ny ∧ resEx.delta.nx = resEx.raw_hist.nx ∧
    resEx.clipped.ny = resEx.raw_hist.ny ∧
    resEx.clipped.nx = resEx.raw_hist.nx ∧
    resEx.raw_hist.val 0 1 =
      (hist2dCount raEx decEx (listMin raEx) (listMax raEx) (listMin decEx)
        (listMax decEx) (nxBins envEx.cosDeg raEx decEx).toNat
        (nyBins decEx).toNat 1 0 : ℚ) :=
  c10_shapes envEx raEx decEx 2 20 resEx 0 1 resEx_ok

/-- C7: pixel index `i` of an axis with `n` bins and bounds `[lo, hi]` is
mapped to the sky coordinate `lo + i*(hi-lo)/n`, which lies inside the
original extent for every in-bounds index. -/
theorem c7_peak_coordinate_mapping (lo hi : ℚ) (n i : ℕ)
    (hn : 0 < n) (hin : i < n) (hlh : lo < hi) :
    peakCoord lo hi n i = lo + i * (hi - lo) / n ∧
    lo ≤ peakCoord lo hi n i ∧ peakCoord lo hi n i ≤ hi := by
  have hnq : (0:ℚ) < (n:ℚ) := by exact_mod_cast hn
  have hs : (0:ℚ) < (hi - lo) / n := div_pos (sub_pos.mpr hlh) hnq
  have hlen : (((hi + (hi - lo) / n) - lo) / ((hi - lo) / n)) = (n:ℚ) + 1 := by
    rw [div_eq_iff (ne_of_gt hs)]
    field_simp
    ring
  have hceil : ⌈((hi + (hi - lo) / n) - lo) / ((hi - lo) / n)⌉ = (n:ℤ) + 1 := by
    rw [hlen]
    have : ((n:ℚ) + 1) = (((n + 1 : ℕ)):ℚ) := by push_cast; ring
    rw [this, Int.ceil_natCast]
    push_cast
    ring
  have hval : peakCoord lo hi n i = lo + i * ((hi - lo) / n) := by
    unfold peakCoord np_arange
    rw [hceil]
    have htn : ((n:ℤ) + 1).toNat = n + 1 := by omega
    rw [htn]
    rw [List.getD_eq_getElem?_getD, List.getElem?_map,
      List.getElem?_range (by omega : i < n + 1)]
    rfl
  refine ⟨by rw [hval]; ring, ?_, ?_⟩
  · rw [hval]
    have h0 : (0:ℚ) ≤ (i:ℚ) * ((hi - lo)/n) := by positivity
    linarith
  · rw [hval]
    have hi1 : ((i:ℚ) + 1) ≤ n := by exact_mod_cast hin
    have h2 : ((i:ℚ) + 1) * ((hi - lo)/n) ≤ (n:ℚ) * ((hi - lo)/n) :=
      mul_le_mul_of_nonneg_right hi1 hs.le
    have hns : (n:ℚ) * ((hi - lo)/n) = hi - lo := by field_simp
    nlinarith [hs.le]

theorem c7_peak_coordinate_mapping_witness :
    peakCoord 0 10 5 2 = 0 + 2 * (10 - 0) / 5 ∧
    (0:ℚ) ≤ peakCoord 0 10 5 2 ∧ peakCoord 0 10 5 2 ≤ 10 :=
  c7_peak_coordinate_mapping 0 10 5 2 (by norm_num) (by norm_num) (by norm_num)

/-- C8: when no cell of the field exceeds the threshold, the peak finder
returns the empty candidate list rather than an error or a null result. -/
theorem c8_no_peaks_below_threshold (f : Field) (t : ℚ) (b : ℕ)
    (h : ∀ j i, j < f.ny → i < f.nx → f.val j i ≤ t) :
    find_candidate_peaks f t b = [] := by
  unfold find_candidate_peaks
  rw [List.filterMap_eq_nil_iff]
  intro c hc
  obtain ⟨j, hj, hc2⟩ := List.mem_flatMap.mp hc
  obtain ⟨i, hi2, rfl⟩ := List.mem_map.mp hc2
  have hjlt : j < f.ny := List.mem_range.mp hj
  have hilt : i < f.nx := List.mem_range.mp hi2
  have hnot : ¬ (t < f.val j i) := not_lt.mpr (h j i hjlt hilt)
  have hpk : isPeak f t b j i = false := by
    unfold isPeak
    simp [hnot]
  simp [hpk]

theorem c8_no_peaks_below_threshold_witness :
    find_candidate_peaks ⟨2, 2, fun _ _ => 0⟩ 0 2 = [] :=
  c8_no_peaks_below_threshold ⟨2, 2, fun _ _ => 0⟩ 0 2
    (fun _ _ _ _ => le_refl 0)

/-- C1 counterexample: on the all-identical point set `ra = dec = [1, 1]`
the call is rejected with zero bins in both axes, but the error is the
numpy `ValueError` surfacing from the histogram call, not a dedicated
`InvalidInputError` raised before any numerical work. -/
theorem c1_counterexample :
    dwarf_filter envEx [1, 1] [1, 1] 2 20 =
        Except.error DetectError.valueErrorNonPositiveBins ∧
    raisedInvalidInput (dwarf_filter envEx [1, 1] [1, 1] 2 20) = false := by
  have hnx : nxBins envEx.cosDeg [1, 1] [1, 1] = 0 := by
    have h0 : (listMax [1, 1] - listMin [1, 1]) *
        envEx.cosDeg (ymean [1, 1]) * 60 = 0 := by
      norm_num [listMin, listMax, List.foldl]
    unfold nxBins
    rw [h0, np_rint_zero]
  have herr : dwarf_filter envEx [1, 1] [1, 1] 2 20 =
      Except.error DetectError.valueErrorNonPositiveBins := by
    unfold dwarf_filter
    rw [if_neg (by simp), if_neg (by simp), if_neg (by simp),
      if_pos (Or.inl (le_of_eq hnx))]
  exact ⟨herr, by rw [herr]; rfl⟩

/-- C1 (amended): `dwarf_filter` rejects exactly the degenerate inputs -
empty sequences, unequal lengths, or a non-positive bin count in either
axis - and the rejection is the numpy `ValueError` raised from inside the
computation, not a dedicated `InvalidInputError` raised before any
numerical work; in particular every nonempty all-identical point set
yields zero bins in both axes and is rejected at the histogram call. -/
theorem c1_degenerate_rejection :
    (∀ (env : NumpyEnv) (ra dec : List ℚ) (f1 f2 : ℚ),
      (∃ e, dwarf_filter env ra dec f1 f2 = Except.error e) ↔
        (dec = [] ∨ ra = [] ∨ ra.length ≠ dec.length ∨
          nxBins env.cosDeg ra dec ≤ 0 ∨ nyBins dec ≤ 0)) ∧
    (∀ (env : NumpyEnv) (ra dec : List ℚ) (f1 f2 v w : ℚ),
      ra ≠ [] → dec ≠ [] → ra.length = dec.length →
      (∀ x ∈ ra, x = v) → (∀ y ∈ dec, y = w) →
      dwarf_filter env ra dec f1 f2 =
          Except.error DetectError.valueErrorNonPositiveBins ∧
        nxBins env.cosDeg ra dec = 0 ∧ nyBins dec = 0) := by
  constructor
  · intro env ra dec f1 f2
    unfold dwarf_filter
    split_ifs with h1 h2 h3 h4
    · exact iff_of_true ⟨_, rfl⟩ (by tauto)
    · exact iff_of_true ⟨_, rfl⟩ (by tauto)
    · exact iff_of_true ⟨_, rfl⟩ (by tauto)
    · exact iff_of_true ⟨_, rfl⟩ (by tauto)
    · refine iff_of_false ?_ (by tauto)
      rintro ⟨e, he⟩
      exact he
  · intro env ra dec f1 f2 v w hra hdec hlen hv hw
    have hxmin : listMin ra = v := listMin_eq_of_const hra hv
    have hxmax : listMax ra = v := listMax_eq_of_const hra hv
    have hymin : listMin dec = w := listMin_eq_of_const hdec hw
    have hymax : listMax dec = w := listMax_eq_of_const hdec hw
    have hnx : nxBins env.cosDeg ra dec = 0 := by
      unfold nxBins
      rw [hxmax, hxmin, sub_self, zero_mul, zero_mul, np_rint_zero]
    have hny : nyBins dec = 0 := by
      unfold nyBins
      rw [hymax, hymin, sub_self, zero_mul, np_rint_zero]
    refine ⟨?_, hnx, hny⟩
    unfold dwarf_filter
    rw [if_neg hdec, if_neg hra, if_neg (by omega),
      if_pos (Or.inl (le_of_eq hnx))]

theorem c1_degenerate_rejection_witness :
    dwarf_filter envEx [2, 2, 2] [3, 3, 3] 2 20 =
        Except.error DetectError.valueErrorNonPositiveBins ∧
      nxBins envEx.cosDeg [2, 2, 2] [3, 3, 3] = 0 ∧
      nyBins [3, 3, 3] = 0 :=
  c1_degenerate_rejection.2 envEx [2, 2, 2] [3, 3, 3] 2 20 2 3
    (by simp) (by simp) rfl
    (by intro x hx; rcases List.mem_cons.mp hx with rfl | hx2
        · rfl
        · rcases List.mem_cons.mp hx2 with rfl | hx3
          · rfl
          · rcases List.mem_cons.mp hx3 with rfl | hx4
            · rfl
            · exact absurd hx4 (List.not_mem_nil x))
    (by intro y hy; rcases List.mem_cons.mp hy with rfl | hy2
        · rfl
        · rcases List.mem_cons.mp hy2 with rfl | hy3
          · rfl
          · rcases List.mem_cons.mp hy3 with rfl | hy4
            · rfl
            · exact absurd hy4 (List.not_mem_nil y))

/-- C6: each histogram bin counts exactly the input points whose
(RA, Dec) falls in that bin - stated through the recorded extent's bin
edges - and the total histogram mass equals the number of input points. -/
theorem c6_histogram_invariant (env : NumpyEnv) (ra dec : List ℚ)
    (f1 f2 : ℚ) (res : DwarfResult) (i j : ℕ)
    (h : dwarf_filter env ra dec f1 f2 = Except.ok res)
    (hi : i < res.raw_hist.nx) (hj : j < res.raw_hist.ny) :
    (res.raw_hist.val j i : ℚ) =
      (((ra.zip dec).filter (fun p =>
          decide (inBinEdges res.extent.1 res.extent.2.1
            res.raw_hist.nx i p.1) &&
          decide (inBinEdges res.extent.2.2.1 res.extent.2.2.2
            res.raw_hist.ny j p.2))).length : ℚ) ∧
    (∑ j2 ∈ Finset.range res.raw_hist.ny,
        ∑ i2 ∈ Finset.range res.raw_hist.nx, res.raw_hist.val j2 i2) =
      (ra.length : ℚ) := by
  obtain ⟨hdec, hra, hlen, hnx, hny, hres⟩ := dwarf_filter_ok_elim h
  subst hres
  have hval : ∀ j2 i2, (dwarfCore env ra dec f1 f2).raw_hist.val j2 i2 =
      (hist2dCount ra dec (listMin ra) (listMax ra) (listMin dec)
        (listMax dec) (nxBins env.cosDeg ra dec).toNat (nyBins dec).toNat
        i2 j2 : ℚ) := fun _ _ => rfl
  have hext1 : (dwarfCore env ra dec f1 f2).extent.1 = listMin ra := rfl
  have hext2 : (dwarfCore env ra dec f1 f2).extent.2.1 = listMax ra := rfl
  have hext3 : (dwarfCore env ra dec f1 f2).extent.2.2.1 = listMin dec := rfl
  have hext4 : (dwarfCore env ra dec f1 f2).extent.2.2.2 = listMax dec := rfl
  have hnx2 : (dwarfCore env ra dec f1 f2).raw_hist.nx =
      (nxBins env.cosDeg ra dec).toNat := rfl
  have hny2 : (dwarfCore env ra dec f1 f2).raw_hist.ny =
      (nyBins dec).toNat := rfl
  rw [hnx2] at hi
  rw [hny2] at hj
  simp only [hval, hext1, hext2, hext3, hext4, hnx2, hny2]
  have hxlt : listMin ra < listMax ra := by
    have h0 : 0 < (listMax ra - listMin ra) * env.cosDeg (ymean dec) * 60 :=
      np_rint_pos hnx
    have hle : listMin ra ≤ listMax ra := listMin_le_listMax hra
    rcases lt_or_eq_of_le hle with hlt | heq
    · exact hlt
    · exfalso
      rw [← heq, sub_self, zero_mul, zero_mul] at h0
      exact lt_irrefl 0 h0
  have hylt : listMin dec < listMax dec := by
    have h0 : 0 < (listMax dec - listMin dec) * 60 := np_rint_pos hny
    nlinarith
  have hNXpos : 0 < (nxBins env.cosDeg ra dec).toNat := by omega
  have hNYpos : 0 < (nyBins dec).toNat := by omega
  have hbounds : ∀ p ∈ ra.zip dec,
      (listMin ra ≤ p.1 ∧ p.1 ≤ listMax ra) ∧
        (listMin dec ≤ p.2 ∧ p.2 ≤ listMax dec) := by
    intro p hp
    obtain ⟨hp1, hp2⟩ := List.of_mem_zip hp
    exact ⟨⟨listMin_le_of_mem hp1, le_listMax_of_mem hp1⟩,
      ⟨listMin_le_of_mem hp2, le_listMax_of_mem hp2⟩⟩
  constructor
  · norm_cast
    unfold hist2dCount
    apply congrArg List.length
    apply List.filter_congr
    intro p hp
    obtain ⟨⟨hp1a, hp1b⟩, hp2a, hp2b⟩ := hbounds p hp
    have e1 : (binIdx (listMin ra) (listMax ra)
        (nxBins env.cosDeg ra dec).toNat p.1 == i) =
        decide (inBinEdges (listMin ra) (listMax ra)
          (nxBins env.cosDeg ra dec).toNat i p.1) := by
      by_cases hP : inBinEdges (listMin ra) (listMax ra)
          (nxBins env.cosDeg ra dec).toNat i p.1
      · simp [hP, (binIdx_eq_iff hxlt hNXpos hi hp1a hp1b).mpr hP]
      · have hne : binIdx (listMin ra) (listMax ra)
            (nxBins env.cosDeg ra dec).toNat p.1 ≠ i :=
          fun hc => hP ((binIdx_eq_iff hxlt hNXpos hi hp1a hp1b).mp hc)
        simp [hP, hne]
    have e2 : (binIdx (listMin dec) (listMax dec)
        (nyBins dec).toNat p.2 == j) =
        decide (inBinEdges (listMin dec) (listMax dec)
          (nyBins dec).toNat j p.2) := by
      by_cases hP : inBinEdges (listMin dec) (listMax dec)
          (nyBins dec).toNat j p.2
      · simp [hP, (binIdx_eq_iff hylt hNYpos hj hp2a hp2b).mpr hP]
      · have hne : binIdx (listMin dec) (listMax dec)
            (nyBins dec).toNat p.2 ≠ j :=
          fun hc => hP ((binIdx_eq_iff hylt hNYpos hj hp2a hp2b).mp hc)
        simp [hP, hne]
    rw [e1, e2]
  · have hsum := sum_hist2dCount ra dec (listMin ra) (listMax ra)
      (listMin dec) (listMax dec) (nxBins env.cosDeg ra dec).toNat
      (nyBins dec).toNat ?_
    · have hziplen : (ra.zip dec).length = ra.length := by
        have hz : (ra.zip dec).length = min ra.length dec.length :=
          List.length_zip ra dec
        omega
      rw [hziplen] at hsum
      norm_cast
    · intro p hp
      obtain ⟨⟨hp1a, hp1b⟩, hp2a, hp2b⟩ := hbounds p hp
      exact ⟨binIdx_lt hxlt hNXpos hp1a hp1b,
        binIdx_lt hylt hNYpos hp2a hp2b⟩

theorem c6_histogram_invariant_witness :
    (resEx.raw_hist.val 0 0 : ℚ) =
      (((raEx.zip decEx).filter (fun p =>
          decide (inBinEdges resEx.extent.1 resEx.extent.2.1
            resEx.raw_hist.nx 0 p.1) &&
          decide (inBinEdges resEx.extent.2.2.1 resEx.extent.2.2.2
            resEx.raw_hist.ny 0 p.2))).length : ℚ) ∧
    (∑ j2 ∈ Finset.range resEx.raw_hist.ny,
        ∑ i2 ∈ Finset.range resEx.raw_hist.nx, resEx.raw_hist.val j2 i2) =
      (raEx.length : ℚ) :=
  c6_histogram_invariant envEx raEx decEx 2 20 resEx 0 0 resEx_ok
    (by rw [resEx_nx]; omega) (by rw [resEx_ny]; omega)

end DwarfFilter
